import Mathlib

/-!
Verification of the alea-legal-benchmark structured-reasoning core.

This file shallowly embeds the parts of the repository that the spec's
claims are about:

* `compute_clause_hash` and the resume ledger from
  `contracts/generate_negotiation_variations_v3.py`
  (clause fingerprinting, dedup, sequential and bounded-concurrency
  orchestration);
* the reasoning data model and its compact-notation renderer from
  `contracts/reasoning_models.py`;
* the symbol-lookup tables of `contracts/inspect_reasoning.py`.

Python dicts holding string values are modelled as association lists,
`str.join` as `joinSep`, `hashlib.blake2b` as an executable RFC 7693
BLAKE2b over `Nat` words reduced modulo `2 ^ 64`, and `str.encode("utf-8")`
as an explicit UTF-8 encoder over unicode scalar values.
-/

/-- A Python `dict` with string keys and string values (the shape of the
clause records read from the input JSONL file), as an association list. -/
abbrev Dict : Type := List (String × String)

/-- `d.get(k, default)`: value of the first binding of `k`, else `default`. -/
def dget (d : Dict) (k : String) (default : String) : String :=
  match d with
  | [] => default
  | (k2, v) :: rest => if k2 = k then v else dget rest k default

/-- Python `sep.join(parts)`. -/
def joinSep (sep : String) : List String → String
  | [] => ""
  | [p] => p
  | p :: rest => p ++ sep ++ joinSep sep rest

/-! ### BLAKE2b (RFC 7693), unkeyed, as called by `hashlib.blake2b`

Bytes are `Nat < 256`, words are `Nat < 2 ^ 64`; every arithmetic step that
can overflow is reduced `% 2 ^ 64` explicitly. -/

/-- `2 ^ 64`, the word modulus of BLAKE2b. -/
def w64 : Nat := 18446744073709551616

/-- Rotate a 64-bit word right by `n` bits. -/
def rotr (x n : Nat) : Nat :=
  ((x >>> n) ||| (x <<< (64 - n))) % w64

/-- The BLAKE2b initialization vector (same as the SHA-512 IV). -/
def ivList : List Nat :=
  [0x6a09e667f3bcc908, 0xbb67ae8584caa73b, 0x3c6ef372fe94f82b,
   0xa54ff53a5f1d36f1, 0x510e527fade682d1, 0x9b05688c2b3e6c1f,
   0x1f83d9abfb41bd6b, 0x5be0cd19137e2179]

/-- The message-word permutation schedule SIGMA of RFC 7693. -/
def sigmaRow : Nat → List Nat
  | 0 => [0, 1, 2, 3, 4, 5, 6, 7, 8, 9, 10, 11, 12, 13, 14, 15]
  | 1 => [14, 10, 4, 8, 9, 15, 13, 6, 1, 12, 0, 2, 11, 7, 5, 3]
  | 2 => [11, 8, 12, 0, 5, 2, 15, 13, 10, 14, 3, 6, 7, 1, 9, 4]
  | 3 => [7, 9, 3, 1, 13, 12, 11, 14, 2, 6, 5, 10, 4, 0, 15, 8]
  | 4 => [9, 0, 5, 7, 2, 4, 10, 15, 14, 1, 11, 12, 6, 8, 3, 13]
  | 5 => [2, 12, 6, 10, 0, 11, 8, 3, 4, 13, 7, 5, 15, 14, 1, 9]
  | 6 => [12, 5, 1, 15, 14, 13, 4, 10, 0, 7, 6, 3, 9, 2, 8, 11]
  | 7 => [13, 11, 7, 14, 12, 1, 3, 9, 5, 0, 15, 4, 8, 6, 2, 10]
  | 8 => [6, 15, 14, 9, 11, 3, 0, 8, 12, 2, 13, 7, 1, 4, 10, 5]
  | _ => [10, 2, 8, 4, 7, 6, 1, 5, 15, 11, 9, 14, 3, 12, 13, 0]

/-- The BLAKE2b mixing function G acting on the work vector `v` at
positions `a b c d` with message words `x y`. -/
def gmix (v : List Nat) (a b c d x y : Nat) : List Nat :=
  let va := (v.getD a 0 + v.getD b 0 + x) % w64
  let vd := rotr ((v.getD d 0) ^^^ va) 32
  let vc := (v.getD c 0 + vd) % w64
  let vb := rotr ((v.getD b 0) ^^^ vc) 24
  let va2 := (va + vb + y) % w64
  let vd2 := rotr (vd ^^^ va2) 16
  let vc2 := (vc + vd2) % w64
  let vb2 := rotr (vb ^^^ vc2) 63
  (((v.set a va2).set b vb2).set c vc2).set d vd2

/-- One round of the BLAKE2b compression: eight G applications driven by a
SIGMA row `s` and message words `m`. -/
def roundF (m : List Nat) (v : List Nat) (s : List Nat) : List Nat :=
  let mi := fun k => m.getD (s.getD k 0) 0
  let v1 := gmix v 0 4 8 12 (mi 0) (mi 1)
  let v2 := gmix v1 1 5 9 13 (mi 2) (mi 3)
  let v3 := gmix v2 2 6 10 14 (mi 4) (mi 5)
  let v4 := gmix v3 3 7 11 15 (mi 6) (mi 7)
  let v5 := gmix v4 0 5 10 15 (mi 8) (mi 9)
  let v6 := gmix v5 1 6 11 12 (mi 10) (mi 11)
  let v7 := gmix v6 2 7 8 13 (mi 12) (mi 13)
  gmix v7 3 4 9 14 (mi 14) (mi 15)

/-- Little-endian decoding of (up to) eight bytes into one 64-bit word. -/
def bytesToWord (bs : List Nat) : Nat :=
  bs.foldr (fun b acc => b + 256 * acc) 0

/-- The sixteen message words of one 128-byte block, little-endian. -/
def msgWords (bs : List Nat) : List Nat :=
  (List.range 16).map (fun i => bytesToWord ((bs.drop (8 * i)).take 8))

/-- The BLAKE2b compression function F: state `h`, message words `m`,
byte counter `t`, finalization flag `final`. -/
def compressF (h : List Nat) (m : List Nat) (t : Nat) (final : Bool) :
    List Nat :=
  let v0 := h ++ ivList
  let v1 := v0.set 12 ((v0.getD 12 0) ^^^ (t % w64))
  let v2 := v1.set 13 ((v1.getD 13 0) ^^^ (t / w64))
  let v3 := if final then v2.set 14 ((v2.getD 14 0) ^^^ (w64 - 1)) else v2
  let vr := (List.range 12).foldl (fun v i => roundF m v (sigmaRow (i % 10))) v3
  (List.range 8).map (fun i => (h.getD i 0) ^^^ (vr.getD i 0) ^^^ (vr.getD (i + 8) 0))

/-- Zero-pad a final (≤ 128 byte) block to exactly 128 bytes. -/
def padBlock (bs : List Nat) : List Nat :=
  bs ++ List.replicate (128 - bs.length) 0

/-- Feed the message through the compression function 128 bytes at a time;
`t` is the count of bytes already compressed. An empty message compresses a
single all-zero block with `t = 0` and the final flag set, exactly as in
RFC 7693 with no key. The first argument is recursion fuel; any fuel
at least `msg.length / 128` is sufficient, and `blake2bDigest` supplies
`msg.length`. -/
def processBlocks : Nat → List Nat → Nat → List Nat → List Nat
  | 0, h, t, msg => compressF h (msgWords (padBlock msg)) (t + msg.length) true
  | fuel + 1, h, t, msg =>
    if msg.length ≤ 128 then
      compressF h (msgWords (padBlock msg)) (t + msg.length) true
    else
      processBlocks fuel (compressF h (msgWords (msg.take 128)) (t + 128) false)
        (t + 128) (msg.drop 128)

/-- The initial state for an unkeyed BLAKE2b hash of digest length `nn`:
the IV with the parameter word `0x01010000 ^^^ nn` folded into `h 0`. -/
def h0 (nn : Nat) : List Nat :=
  match ivList with
  | [] => []
  | first :: rest => (first ^^^ (0x01010000 ^^^ nn)) :: rest

/-- The eight little-endian bytes of a 64-bit word. -/
def wordLE8 (x : Nat) : List Nat :=
  [x % 256, (x >>> 8) % 256, (x >>> 16) % 256, (x >>> 24) % 256,
   (x >>> 32) % 256, (x >>> 40) % 256, (x >>> 48) % 256, (x >>> 56) % 256]

/-- `hashlib.blake2b(msg, digest_size := nn).digest()` as a byte list. -/
def blake2bDigest (msg : List Nat) (nn : Nat) : List Nat :=
  ((processBlocks msg.length (h0 nn) 0 msg).flatMap wordLE8).take nn

/-- The lowercase hex character of a nibble. -/
def hexc (n : Nat) : Char :=
  if n < 10 then Char.ofNat (48 + n) else Char.ofNat (87 + n)

/-- Lowercase hex rendering of a byte list (`bytes.hex()` /
`.hexdigest()`). -/
def hexOfBytes (bs : List Nat) : String :=
  String.mk (bs.flatMap (fun b => [hexc ((b / 16) % 16), hexc (b % 16)]))

/-- UTF-8 encoding of one unicode scalar value. -/
def utf8Char (c : Char) : List Nat :=
  let n := c.toNat
  if n < 0x80 then [n]
  else if n < 0x800 then
    [0xc0 ||| (n >>> 6), 0x80 ||| (n &&& 0x3f)]
  else if n < 0x10000 then
    [0xe0 ||| (n >>> 12), 0x80 ||| ((n >>> 6) &&& 0x3f), 0x80 ||| (n &&& 0x3f)]
  else
    [0xf0 ||| (n >>> 18), 0x80 ||| ((n >>> 12) &&& 0x3f),
     0x80 ||| ((n >>> 6) &&& 0x3f), 0x80 ||| (n &&& 0x3f)]

/-- Python `s.encode("utf-8")` as a byte list. -/
def utf8Encode (s : String) : List Nat :=
  s.data.flatMap utf8Char

/-- `compute_clause_hash` of `generate_negotiation_variations_v3.py`:
the six-field string is assembled exactly as the Python `+=` chain does
(left-associated appends of `"|" + field`), then hashed with BLAKE2b at
digest size 16 and rendered as lowercase hex. -/
def compute_clause_hash (clause_data : Dict) : String :=
  let hash_input :=
    ((((dget clause_data "clause" ""
      ++ ("|" ++ dget clause_data "date" ""))
      ++ ("|" ++ dget clause_data "area_of_law" ""))
      ++ ("|" ++ dget clause_data "location" ""))
      ++ ("|" ++ dget clause_data "industry" ""))
      ++ ("|" ++ dget clause_data "clause_type" "")
  hexOfBytes (blake2bDigest (utf8Encode hash_input) 16)

/-- The six fingerprint field names, in the order the code concatenates
them. -/
def fingerprintFields : List String :=
  ["clause", "date", "area_of_law", "location", "industry", "clause_type"]

/-- Modelled from the spec: the fingerprint is "the blake2b 16-byte digest,
as a fixed-length hex string, of the six field values joined by the literal
`|` separator", an absent field treated as the empty string. -/
def fingerprint_spec (clause_data : Dict) : String :=
  hexOfBytes (blake2bDigest
    (utf8Encode (joinSep "|" (fingerprintFields.map (fun k => dget clause_data k ""))))
    16)

/-! ### Facts about the fingerprint -/

theorem processBlocks_length (fuel : Nat) :
    ∀ (h : List Nat) (t : Nat) (msg : List Nat),
      (processBlocks fuel h t msg).length = 8 := by
  induction fuel with
  | zero =>
    intro h t msg
    simp [processBlocks, compressF]
  | succ n ih =>
    intro h t msg
    by_cases hc : msg.length ≤ 128
    · simp [processBlocks, hc, compressF]
    · simp [processBlocks, hc, ih]

theorem flatMap_wordLE8_length (l : List Nat) :
    (l.flatMap wordLE8).length = 8 * l.length := by
  induction l with
  | nil => simp
  | cons x xs ih =>
    simp [List.flatMap_cons, ih, wordLE8]
    ring

theorem blake2bDigest_length (msg : List Nat) :
    (blake2bDigest msg 16).length = 16 := by
  unfold blake2bDigest
  rw [List.length_take, flatMap_wordLE8_length, processBlocks_length]
  omega

theorem hexOfBytes_length (bs : List Nat) :
    (hexOfBytes bs).length = 2 * bs.length := by
  unfold hexOfBytes
  rw [String.length_mk]
  induction bs with
  | nil => simp
  | cons b rest ih =>
    simp only [List.flatMap_cons, List.length_append, ih, List.length_cons,
      List.length_nil]
    ring

/-- C1: two records with byte-identical values in the six fingerprint
fields (absent treated as empty) hash identically regardless of any other
field; and every fingerprint is the 16-byte BLAKE2b digest, as a 32-char
hex string, of the six field values joined by the literal `|` separator. -/
theorem C1_fingerprint_dedup_key :
    (∀ d1 d2 : Dict,
      dget d1 "clause" "" = dget d2 "clause" "" →
      dget d1 "date" "" = dget d2 "date" "" →
      dget d1 "area_of_law" "" = dget d2 "area_of_law" "" →
      dget d1 "location" "" = dget d2 "location" "" →
      dget d1 "industry" "" = dget d2 "industry" "" →
      dget d1 "clause_type" "" = dget d2 "clause_type" "" →
      compute_clause_hash d1 = compute_clause_hash d2) ∧
    (∀ d : Dict, compute_clause_hash d = fingerprint_spec d ∧
      (compute_clause_hash d).length = 32) := by
  constructor
  · intro d1 d2 h1 h2 h3 h4 h5 h6
    unfold compute_clause_hash
    rw [h1, h2, h3, h4, h5, h6]
  · intro d
    constructor
    · unfold compute_clause_hash fingerprint_spec fingerprintFields
      simp only [List.map_cons, List.map_nil, joinSep, String.append_assoc]
    · unfold compute_clause_hash
      rw [hexOfBytes_length, blake2bDigest_length]

/-- C1 witness: two concrete records agreeing on the six fields but
differing in another field have equal fingerprints. -/
theorem C1_fingerprint_dedup_key_witness :
    compute_clause_hash
        [("clause", "a"), ("date", "d"), ("negotiation_analysis", "x")]
      = compute_clause_hash
        [("negotiation_analysis", "y"), ("clause", "a"), ("date", "d")] :=
  C1_fingerprint_dedup_key.1 _ _ rfl rfl rfl rfl rfl rfl

set_option maxRecDepth 100000 in
/-- Sanity check of the BLAKE2b model against the RFC 7693 appendix A test
vector for the message "abc" at the default 64-byte digest size. -/
theorem blake2b_rfc7693_test_vector :
    hexOfBytes (blake2bDigest (utf8Encode "abc") 64) =
      "ba80a53f981c4d0d6a2797b69f12f6e94c212f14685ac4b74b12bb6fdbffa2d17d87c5392aab792dc252d5de4533cc9518d38aa8dbf1925ab92386edd4009923" := by
  decide

/-! ### The reasoning data model of `contracts/reasoning_models.py`

The six string-valued enums are embedded as inductive types whose
constructors carry the enums' serialized `.value` strings, and each
`to_symbol` is the corresponding dictionary of the source, total on the
enum by construction. -/

/-- Epistemic confidence in a claim's truth. -/
inductive BeliefStrength
  | certain_true | strong_true | lean_true | undecided | lean_false
  | certain_false
  deriving DecidableEq, Fintype, Repr

/-- `BeliefStrength.to_symbol`. -/
def BeliefStrength.to_symbol : BeliefStrength → String
  | .certain_true => "⬤"
  | .strong_true => "●"
  | .lean_true => "◐"
  | .undecided => "◌"
  | .lean_false => "◑"
  | .certain_false => "○"

/-- Normative valence. -/
inductive ValueAttitude
  | approve | disapprove | mixed | neutral
  deriving DecidableEq, Fintype, Repr

/-- `ValueAttitude.to_symbol`. -/
def ValueAttitude.to_symbol : ValueAttitude → String
  | .approve => "⬆"
  | .disapprove => "⬇"
  | .mixed => "⇆"
  | .neutral => "⟂"

/-- Type of claim being made. -/
inductive ClaimType
  | fact | value | policy | preference
  deriving DecidableEq, Fintype, Repr

/-- `ClaimType.to_symbol`. -/
def ClaimType.to_symbol : ClaimType → String
  | .fact => "⧈"
  | .value => "⚖"
  | .policy => "⏵"
  | .preference => "✦"

/-- Source/type of evidence (constructors named by the enum values). -/
inductive EvidenceSource
  | legal_precedent | statute | data | theory | observation | testimony
  | industry_practice | economic | risk
  deriving DecidableEq, Fintype, Repr

/-- `EvidenceSource.to_symbol`. -/
def EvidenceSource.to_symbol : EvidenceSource → String
  | .legal_precedent => "⚖️"
  | .statute => "📜"
  | .data => "📊"
  | .theory => "📚"
  | .observation => "👁"
  | .testimony => "🗣"
  | .industry_practice => "🏢"
  | .economic => "💰"
  | .risk => "⚠"

/-- Strength of evidence. -/
inductive EvidenceStrength
  | very_strong | strong | weak | very_weak
  deriving DecidableEq, Fintype, Repr

/-- `EvidenceStrength.to_symbol`. -/
def EvidenceStrength.to_symbol : EvidenceStrength → String
  | .very_strong => "★★★"
  | .strong => "★★"
  | .weak => "★"
  | .very_weak => "☆"

/-- Relationship between claims. -/
inductive RelationType
  | supports | attacks | explains | equivalent
  deriving DecidableEq, Fintype, Repr

/-- `RelationType.to_symbol`. -/
def RelationType.to_symbol : RelationType → String
  | .supports => "⟶"
  | .attacks => "⟞"
  | .explains => "⇢"
  | .equivalent => "⟺"

/-- Evidence supporting a claim. -/
structure EvidenceCitation where
  source : EvidenceSource
  strength : EvidenceStrength
  description : String
  deriving DecidableEq, Repr

/-- `EvidenceCitation.to_notation` (renders the symbols only, never the
description). -/
def EvidenceCitation.toNotation (e : EvidenceCitation) : String :=
  e.source.to_symbol ++ e.strength.to_symbol

/-- A single claim/belief in the strategic reasoning. -/
structure StrategicClaim where
  claim_id : String
  agent : String
  proposition : String
  belief : BeliefStrength
  value : ValueAttitude
  claim_type : ClaimType
  evidence : List EvidenceCitation
  deriving DecidableEq, Repr

/-- `StrategicClaim.to_notation`: the base parts, the evidence part
appended when the evidence list is non-empty (Python truthiness of a
list), all joined by `" ".join`. -/
def StrategicClaim.toNotation (c : StrategicClaim) : String :=
  let parts := [c.claim_id, "«" ++ c.agent ++ "»",
    c.belief.to_symbol ++ c.value.to_symbol,
    c.claim_type.to_symbol,
    "\"" ++ c.proposition ++ "\""]
  let parts2 := if c.evidence = [] then parts else
    parts ++ ["⊢ " ++ joinSep " ⋀ " (c.evidence.map EvidenceCitation.toNotation)]
  joinSep " " parts2

/-- Relationship between two claims, by claim id. -/
structure ArgumentLink where
  from_claim : String
  to_claim : String
  relation : RelationType
  explanation : Option String
  deriving DecidableEq, Repr

/-- `ArgumentLink.to_notation`: `if self.explanation:` is Python
truthiness of `Optional[str]`, so the explanation is appended exactly when
it is a non-empty string. -/
def ArgumentLink.toNotation (l : ArgumentLink) : String :=
  let base := l.from_claim ++ " " ++ l.relation.to_symbol ++ " " ++ l.to_claim
  match l.explanation with
  | some e => if e = "" then base else base ++ ("  // " ++ e)
  | none => base

/-- Complete reasoning chain. The source bounds `claims` to 1-10 entries
via pydantic field validation; no operation below relies on the bound, so
it is not baked into the type. -/
structure ReasoningChain where
  claims : List StrategicClaim
  links : List ArgumentLink
  prose_summary : String
  deriving DecidableEq, Repr

/-- `ReasoningChain.to_notation`: one line per claim in stored order, then,
when links are non-empty, a blank line, a `Links:` line and one line per
link in stored order, all joined by `"\n".join`. -/
def ReasoningChain.toNotation (ch : ReasoningChain) : String :=
  let lines := ch.claims.map StrategicClaim.toNotation
  let lines2 := if ch.links = [] then lines else
    lines ++ [""] ++ ["Links:"] ++ ch.links.map ArgumentLink.toNotation
  joinSep "\n" lines2

/-- The linear scan behind `ReasoningChain.get_claim_by_id`. -/
def findClaim : List StrategicClaim → String → Option StrategicClaim
  | [], _ => none
  | c :: rest, cid => if c.claim_id = cid then some c else findClaim rest cid

/-- `ReasoningChain.get_claim_by_id`: first stored claim with the id,
`None` otherwise. -/
def ReasoningChain.get_claim_by_id (ch : ReasoningChain) (claim_id : String) :
    Option StrategicClaim :=
  findClaim ch.claims claim_id

/-- `ReasoningChain.get_supporting_claims`. -/
def ReasoningChain.get_supporting_claims (ch : ReasoningChain)
    (claim_id : String) : List StrategicClaim :=
  let supporting_ids := (ch.links.filter
    (fun link => link.to_claim == claim_id &&
      link.relation == RelationType.supports)).map ArgumentLink.from_claim
  ch.claims.filter (fun c => supporting_ids.contains c.claim_id)

/-- `ReasoningChain.get_attacking_claims`. -/
def ReasoningChain.get_attacking_claims (ch : ReasoningChain)
    (claim_id : String) : List StrategicClaim :=
  let attacking_ids := (ch.links.filter
    (fun link => link.to_claim == claim_id &&
      link.relation == RelationType.attacks)).map ArgumentLink.from_claim
  ch.claims.filter (fun c => attacking_ids.contains c.claim_id)


/-! ### Notation rendering: spec-side renderers and claims C5, C6 -/

theorem joinSep_append_singleton (sep x : String) :
    ∀ (l : List String), l ≠ [] →
      joinSep sep (l ++ [x]) = joinSep sep l ++ sep ++ x := by
  intro l
  induction l with
  | nil => intro h; exact absurd rfl h
  | cons p rest ih =>
    intro _
    cases rest with
    | nil => simp [joinSep]
    | cons q rs =>
      have hq := ih (by simp)
      simp only [List.cons_append] at hq ⊢
      have e1 : joinSep sep (p :: (q :: (rs ++ [x]))) =
          p ++ sep ++ joinSep sep (q :: (rs ++ [x])) := rfl
      have e2 : joinSep sep (p :: q :: rs) =
          p ++ sep ++ joinSep sep (q :: rs) := rfl
      rw [e1, e2, hq]
      simp [String.append_assoc]

/-- Modelled from the spec: the claim line is the claim id, the agent in
`«»`, the belief symbol immediately followed by the value symbol, the
claim-type symbol and the quoted proposition joined by single spaces, with
`" ⊢ "` plus the evidence symbols joined by `" ⋀ "` appended exactly when
the evidence list is non-empty, each evidence symbol being the source
symbol concatenated with the strength symbol. -/
def specClaimLine (c : StrategicClaim) : String :=
  joinSep " " [c.claim_id, "«" ++ c.agent ++ "»",
    c.belief.to_symbol ++ c.value.to_symbol, c.claim_type.to_symbol,
    "\"" ++ c.proposition ++ "\""] ++
  (if c.evidence = [] then "" else
    " ⊢ " ++ joinSep " ⋀ "
      (c.evidence.map (fun e => e.source.to_symbol ++ e.strength.to_symbol)))

/-- Modelled from the spec, claim C5 as stated: the link line with
`"  // <explanation>"` appended whenever the explanation is present. -/
def specLinkLine (l : ArgumentLink) : String :=
  l.from_claim ++ " " ++ l.relation.to_symbol ++ " " ++ l.to_claim ++
    (match l.explanation with
     | some e => "  // " ++ e
     | none => "")

/-- The link line as the code actually behaves: the explanation is
appended when present AND non-empty (Python truthiness of `Optional[str]`). -/
def specLinkLineA (l : ArgumentLink) : String :=
  l.from_claim ++ " " ++ l.relation.to_symbol ++ " " ++ l.to_claim ++
    (match l.explanation with
     | some e => if e = "" then "" else "  // " ++ e
     | none => "")

/-- Modelled from the spec, claim C5 as stated (uses `specLinkLine`). -/
def specChainRender (ch : ReasoningChain) : String :=
  joinSep "\n" (ch.claims.map specClaimLine ++
    (if ch.links = [] then [] else
      "" :: "Links:" :: ch.links.map specLinkLine))

/-- The chain rendering per the amended claim (uses `specLinkLineA`). -/
def specChainRenderA (ch : ReasoningChain) : String :=
  joinSep "\n" (ch.claims.map specClaimLine ++
    (if ch.links = [] then [] else
      "" :: "Links:" :: ch.links.map specLinkLineA))

theorem claimLine_eq (c : StrategicClaim) :
    StrategicClaim.toNotation c = specClaimLine c := by
  obtain ⟨cid, ag, pr, be, va, ct, ev⟩ := c
  simp only [StrategicClaim.toNotation, specClaimLine]
  cases ev with
  | nil => simp
  | cons e rest =>
    simp only [reduceCtorEq, ite_false, EvidenceCitation.toNotation]
    rw [joinSep_append_singleton _ _ _ (by simp)]
    rw [String.append_assoc]
    have hm : (" " : String) ++ "⊢ " = " ⊢ " := rfl
    rw [← hm, ← String.append_assoc " " "⊢ "]
    rfl

theorem linkLine_eq (l : ArgumentLink) :
    ArgumentLink.toNotation l = specLinkLineA l := by
  obtain ⟨f, t, r, ex⟩ := l
  simp only [ArgumentLink.toNotation, specLinkLineA]
  cases ex with
  | none => simp
  | some e =>
    by_cases he : e = ""
    · simp [he]
    · simp [he]

theorem chainRender_eq (ch : ReasoningChain) :
    ReasoningChain.toNotation ch = specChainRenderA ch := by
  obtain ⟨cls, lks, ps⟩ := ch
  simp only [ReasoningChain.toNotation, specChainRenderA]
  rw [List.map_congr_left (fun c _ => claimLine_eq c)]
  cases lks with
  | nil => simp
  | cons l ls =>
    simp only [reduceCtorEq, ite_false]
    rw [List.map_congr_left (fun x _ => linkLine_eq x)]
    simp

/-- A concrete chain whose single link carries `explanation = some ""`. -/
def cexChain5 : ReasoningChain :=
  ⟨[⟨"①", "A", "p", BeliefStrength.strong_true, ValueAttitude.approve,
      ClaimType.fact, []⟩],
   [⟨"①", "②", RelationType.supports, some ""⟩], "s"⟩

/-- C5 counterexample: on a link whose explanation is present but empty
(`Optional[str]` value `some ""`), the code omits the `"  // "` suffix the
claim as stated requires, so the rendering differs from the claimed form. -/
theorem C5_notation_cex :
    ReasoningChain.toNotation cexChain5 ≠ specChainRender cexChain5 ∧
      cexChain5.links.map ArgumentLink.explanation = [some ""] := by
  constructor
  · decide
  · decide

/-- C5 (amended: the explanation suffix is appended when the explanation
is present and non-empty): every claim renders as the id, `«agent»`,
belief+value symbols, type symbol and quoted proposition joined by single
spaces with the `" ⊢ "` evidence suffix exactly when evidence is
non-empty; the chain rendering is one line per claim in stored order plus
the blank/`Links:`/link-lines block when links are non-empty; and the
spec's concrete example claim renders to the exact required string. -/
theorem C5_notation_format :
    (∀ c : StrategicClaim, StrategicClaim.toNotation c = specClaimLine c) ∧
    (∀ ch : ReasoningChain,
      ReasoningChain.toNotation ch = specChainRenderA ch) ∧
    StrategicClaim.toNotation
      ⟨"①", "Employer", "<<proposition>>", BeliefStrength.strong_true,
        ValueAttitude.approve, ClaimType.fact,
        [⟨EvidenceSource.industry_practice, EvidenceStrength.strong,
          "common in tech"⟩]⟩
      = "① «Employer» ●⬆ ⧈ \"<<proposition>>\" ⊢ 🏢★★" :=
  ⟨claimLine_eq, chainRender_eq, by decide⟩

/-- C6: on each of the six enumerated axes the symbol mapping is total
(always a non-empty string) and injective (distinct values get distinct
symbols). -/
theorem C6_symbol_total_injective :
    ((∀ x : BeliefStrength, BeliefStrength.to_symbol x ≠ "") ∧
      ∀ x y : BeliefStrength,
        BeliefStrength.to_symbol x = BeliefStrength.to_symbol y → x = y) ∧
    ((∀ x : ValueAttitude, ValueAttitude.to_symbol x ≠ "") ∧
      ∀ x y : ValueAttitude,
        ValueAttitude.to_symbol x = ValueAttitude.to_symbol y → x = y) ∧
    ((∀ x : ClaimType, ClaimType.to_symbol x ≠ "") ∧
      ∀ x y : ClaimType,
        ClaimType.to_symbol x = ClaimType.to_symbol y → x = y) ∧
    ((∀ x : EvidenceSource, EvidenceSource.to_symbol x ≠ "") ∧
      ∀ x y : EvidenceSource,
        EvidenceSource.to_symbol x = EvidenceSource.to_symbol y → x = y) ∧
    ((∀ x : EvidenceStrength, EvidenceStrength.to_symbol x ≠ "") ∧
      ∀ x y : EvidenceStrength,
        EvidenceStrength.to_symbol x = EvidenceStrength.to_symbol y → x = y) ∧
    ((∀ x : RelationType, RelationType.to_symbol x ≠ "") ∧
      ∀ x y : RelationType,
        RelationType.to_symbol x = RelationType.to_symbol y → x = y) := by
  refine ⟨⟨?_, ?_⟩, ⟨?_, ?_⟩, ⟨?_, ?_⟩, ⟨?_, ?_⟩, ⟨?_, ?_⟩, ⟨?_, ?_⟩⟩ <;>
    decide

/-- C6 witness: the injectivity direction applied at a concrete pair of
symbols. -/
theorem C6_symbol_total_injective_witness :
    BeliefStrength.certain_true = BeliefStrength.certain_true ∧
      RelationType.supports = RelationType.supports :=
  ⟨C6_symbol_total_injective.1.2 BeliefStrength.certain_true
      BeliefStrength.certain_true (by decide),
    (C6_symbol_total_injective.2.2.2.2.2).2 RelationType.supports
      RelationType.supports (by decide)⟩

/-! ### Claim-graph queries: C8, C10 -/

theorem findClaim_eq_none_iff (cid : String) :
    ∀ l : List StrategicClaim,
      findClaim l cid = none ↔ ∀ c ∈ l, c.claim_id ≠ cid := by
  intro l
  induction l with
  | nil => simp [findClaim]
  | cons c rest ih =>
    by_cases hc : c.claim_id = cid
    · simp [findClaim, hc]
    · simp [findClaim, hc, ih]

theorem findClaim_first (cid : String) :
    ∀ (l1 : List StrategicClaim) (c : StrategicClaim)
      (l2 : List StrategicClaim),
      c.claim_id = cid → (∀ c2 ∈ l1, c2.claim_id ≠ cid) →
      findClaim (l1 ++ c :: l2) cid = some c := by
  intro l1
  induction l1 with
  | nil =>
    intro c l2 hc _
    simp [findClaim, hc]
  | cons p rest ih =>
    intro c l2 hc hnone
    have hp : p.claim_id ≠ cid := hnone p (by simp)
    simp only [List.cons_append, findClaim, hp, if_neg]
    exact ih c l2 hc (fun c2 h2 => hnone c2 (by simp [h2]))

/-- C10: `get_claim_by_id` returns `none` exactly when no stored claim has
the id, and otherwise the FIRST claim in stored order with that id — a
later duplicate is never returned. -/
theorem C10_get_claim_by_id_first :
    ∀ (ch : ReasoningChain) (cid : String),
      (ReasoningChain.get_claim_by_id ch cid = none ↔
        ∀ c ∈ ch.claims, c.claim_id ≠ cid) ∧
      (∀ (l1 : List StrategicClaim) (c : StrategicClaim)
        (l2 : List StrategicClaim),
        ch.claims = l1 ++ c :: l2 → c.claim_id = cid →
        (∀ c2 ∈ l1, c2.claim_id ≠ cid) →
        ReasoningChain.get_claim_by_id ch cid = some c) := by
  intro ch cid
  constructor
  · exact findClaim_eq_none_iff cid ch.claims
  · intro l1 c l2 hsplit hc hnone
    unfold ReasoningChain.get_claim_by_id
    rw [hsplit]
    exact findClaim_first cid l1 c l2 hc hnone

/-- Two claims sharing the id `"①"`; construction does not reject the
duplicate. -/
def dupChain : ReasoningChain :=
  ⟨[⟨"①", "A", "first", BeliefStrength.strong_true, ValueAttitude.approve,
      ClaimType.fact, []⟩,
    ⟨"①", "B", "second", BeliefStrength.undecided, ValueAttitude.neutral,
      ClaimType.value, []⟩], [], "s"⟩

/-- C10 witness: on a chain with a duplicated claim id the first stored
claim is returned, never the later duplicate. -/
theorem C10_get_claim_by_id_first_witness :
    ReasoningChain.get_claim_by_id dupChain "①" =
      some ⟨"①", "A", "first", BeliefStrength.strong_true,
        ValueAttitude.approve, ClaimType.fact, []⟩ :=
  (C10_get_claim_by_id_first dupChain "①").2 []
    ⟨"①", "A", "first", BeliefStrength.strong_true, ValueAttitude.approve,
      ClaimType.fact, []⟩
    [⟨"①", "B", "second", BeliefStrength.undecided, ValueAttitude.neutral,
      ClaimType.value, []⟩]
    (by decide) (by decide) (by decide)

/-- C8: membership in `get_supporting_claims ch cid` is exactly "stored
claim with a supports-link from it to `cid`", and symmetrically for
`get_attacking_claims` with attacks-links; a link whose endpoints match no
stored claim contributes nothing and causes no error. -/
theorem C8_supporters_attackers :
    ∀ (ch : ReasoningChain) (cid : String) (c : StrategicClaim),
      (c ∈ ReasoningChain.get_supporting_claims ch cid ↔
        c ∈ ch.claims ∧ ∃ l ∈ ch.links, l.from_claim = c.claim_id ∧
          l.to_claim = cid ∧ l.relation = RelationType.supports) ∧
      (c ∈ ReasoningChain.get_attacking_claims ch cid ↔
        c ∈ ch.claims ∧ ∃ l ∈ ch.links, l.from_claim = c.claim_id ∧
          l.to_claim = cid ∧ l.relation = RelationType.attacks) := by
  intro ch cid c
  constructor
  · unfold ReasoningChain.get_supporting_claims
    simp only [List.mem_filter, List.contains_iff_exists_mem_beq,
      List.mem_map, List.mem_filter, Bool.and_eq_true, beq_iff_eq]
    constructor
    · rintro ⟨hmem, lid, ⟨l, ⟨hl, hto, hrel⟩, hfrom⟩, hbeq⟩
      exact ⟨hmem, l, hl, by simp_all⟩
    · rintro ⟨hmem, l, hl, hfrom, hto, hrel⟩
      exact ⟨hmem, l.from_claim, ⟨l, ⟨hl, hto, hrel⟩, rfl⟩, by simp [hfrom]⟩
  · unfold ReasoningChain.get_attacking_claims
    simp only [List.mem_filter, List.contains_iff_exists_mem_beq,
      List.mem_map, List.mem_filter, Bool.and_eq_true, beq_iff_eq]
    constructor
    · rintro ⟨hmem, lid, ⟨l, ⟨hl, hto, hrel⟩, hfrom⟩, hbeq⟩
      exact ⟨hmem, l, hl, by simp_all⟩
    · rintro ⟨hmem, l, hl, hfrom, hto, hrel⟩
      exact ⟨hmem, l.from_claim, ⟨l, ⟨hl, hto, hrel⟩, rfl⟩, by simp [hfrom]⟩

/-- A chain with one resolvable supports-link and one dangling link (no
stored claim has id `"③"`). -/
def danglingChain : ReasoningChain :=
  ⟨[⟨"①", "A", "p", BeliefStrength.strong_true, ValueAttitude.approve,
      ClaimType.fact, []⟩,
    ⟨"②", "B", "q", BeliefStrength.lean_true, ValueAttitude.neutral,
      ClaimType.value, []⟩],
   [⟨"①", "②", RelationType.supports, none⟩,
    ⟨"③", "②", RelationType.supports, none⟩],
   "s"⟩

/-- C8 witness: on the chain with a dangling link, the claim `"①"` is
reported as a supporter of `"②"` (the dangling `"③"` endpoint simply
resolves to no stored claim). -/
theorem C8_supporters_attackers_witness :
    (⟨"①", "A", "p", BeliefStrength.strong_true, ValueAttitude.approve,
        ClaimType.fact, []⟩ : StrategicClaim)
      ∈ ReasoningChain.get_supporting_claims danglingChain "②" :=
  (C8_supporters_attackers danglingChain "②" _).1.mpr
    ⟨by decide, ⟨"①", "②", RelationType.supports, none⟩, by decide,
      by decide, by decide, by decide⟩

/-! ### Renderer determinism and order sensitivity: C9 -/

theorem joinSep_cons_ne (sep p : String) (l : List String) (h : l ≠ []) :
    joinSep sep (p :: l) = p ++ sep ++ joinSep sep l := by
  cases l with
  | nil => exact absurd rfl h
  | cons q qs => rfl

theorem append_newline_inj :
    ∀ (as : List Char) (bs xs ys : List Char), '\n' ∉ as → '\n' ∉ bs →
      as ++ '\n' :: xs = bs ++ '\n' :: ys → as = bs ∧ xs = ys := by
  intro as
  induction as with
  | nil =>
    intro bs xs ys _ hb h
    cases bs with
    | nil => simpa using h
    | cons b bs2 =>
      simp only [List.nil_append, List.cons_append, List.cons.injEq] at h
      exact absurd (by rw [h.1]; exact List.mem_cons_self b bs2) hb
  | cons a as2 ih =>
    intro bs xs ys ha hb h
    cases bs with
    | nil =>
      simp only [List.nil_append, List.cons_append, List.cons.injEq] at h
      exact absurd (by rw [← h.1]; exact List.mem_cons_self a as2) ha
    | cons b bs2 =>
      simp only [List.cons_append, List.cons.injEq] at h
      obtain ⟨hab, h2⟩ := h
      have ha2 : '\n' ∉ as2 := fun hm => ha (List.mem_cons_of_mem a hm)
      have hb2 : '\n' ∉ bs2 := fun hm => hb (List.mem_cons_of_mem b hm)
      obtain ⟨he, hx⟩ := ih bs2 xs ys ha2 hb2 h2
      exact ⟨by rw [hab, he], hx⟩

theorem joinSep_nl_inj :
    ∀ (A B T : List String), A.length = B.length →
      (∀ a ∈ A, '\n' ∉ a.data) → (∀ b ∈ B, '\n' ∉ b.data) →
      joinSep "\n" (A ++ T) = joinSep "\n" (B ++ T) → A = B := by
  intro A
  induction A with
  | nil =>
    intro B T hlen _ _ _
    cases B with
    | nil => rfl
    | cons b B2 => simp at hlen
  | cons a A2 ih =>
    intro B T hlen hA hB heq
    cases B with
    | nil => simp at hlen
    | cons b B2 =>
      have hlen2 : A2.length = B2.length := by simpa using hlen
      cases hAT : A2 ++ T with
      | nil =>
        obtain ⟨hA2, hT⟩ := List.append_eq_nil.mp hAT
        have hB2 : B2 = [] := by
          subst hA2
          exact List.length_eq_zero.mp hlen2.symm
        subst hA2; subst hT; subst hB2
        simp only [List.append_nil, joinSep] at heq
        rw [heq]
      | cons q qs =>
        have hBT : B2 ++ T ≠ [] := by
          intro hc
          obtain ⟨hB2, hT⟩ := List.append_eq_nil.mp hc
          subst hB2
          subst hT
          have hA2 : A2 = [] := List.length_eq_zero.mp (by simpa using hlen2)
          subst hA2
          simp at hAT
        rw [List.cons_append, List.cons_append,
          joinSep_cons_ne _ _ _ (by rw [hAT]; simp),
          joinSep_cons_ne _ _ _ hBT] at heq
        have hd := congrArg String.data heq
        simp only [String.data_append] at hd
        simp only [List.append_assoc, List.singleton_append] at hd
        obtain ⟨hab, hrest⟩ := append_newline_inj _ _ _ _
          (hA a (by simp)) (hB b (by simp)) hd
        have hab' : a = b := String.ext hab
        have hjoin : joinSep "\n" (A2 ++ T) = joinSep "\n" (B2 ++ T) :=
          String.ext hrest
        have htail : A2 = B2 := ih B2 T hlen2
          (fun x hx => hA x (by simp [hx]))
          (fun x hx => hB x (by simp [hx])) hjoin
        rw [hab', htail]

theorem map_eq_of_perm_nodup {α β : Type} (f : α → β) (l1 l2 : List α)
    (hp : l2.Perm l1) (hnd : (l1.map f).Nodup)
    (heq : l1.map f = l2.map f) : l1 = l2 := by
  have hlen : l1.length = l2.length := hp.length_eq.symm
  apply List.ext_getElem hlen
  intro i h1 h2
  have h1m : i < (l1.map f).length := by simpa using h1
  have h2m : i < (l2.map f).length := by simpa using h2
  have hf : f (l1[i]) = f (l2[i]) := by
    have := List.getElem_of_eq heq h1m
    simpa using this
  have hm : l2[i] ∈ l1 := hp.subset (List.getElem_mem h2)
  obtain ⟨j, hj, hji⟩ := List.getElem_of_mem hm
  have hjm : j < (l1.map f).length := by simpa using hj
  have hfij : (l1.map f).get ⟨i, h1m⟩ = (l1.map f).get ⟨j, hjm⟩ := by
    simp only [List.get_eq_getElem, List.getElem_map]
    rw [hf, ← hji]
  have hij : i = j := by
    have hfin := hnd.get_inj_iff.mp hfij
    simpa using hfin
  subst hij
  exact hji

/-- The lines the renderer emits after the claim lines: nothing when links
are empty, else the blank line, the `Links:` header and the link lines. -/
def linkBlock (links : List ArgumentLink) : List String :=
  if links = [] then [] else
    "" :: "Links:" :: links.map ArgumentLink.toNotation

theorem toNotation_split (ch : ReasoningChain) :
    ReasoningChain.toNotation ch =
      joinSep "\n"
        (ch.claims.map StrategicClaim.toNotation ++ linkBlock ch.links) := by
  obtain ⟨cls, lks, ps⟩ := ch
  simp only [ReasoningChain.toNotation, linkBlock]
  cases lks with
  | nil => simp
  | cons l ls => simp

/-- Two claims identical except for the (unrendered) evidence description. -/
def cexClaimA : StrategicClaim :=
  ⟨"①", "A", "p", BeliefStrength.strong_true, ValueAttitude.approve,
    ClaimType.fact, [⟨EvidenceSource.data, EvidenceStrength.strong, "one"⟩]⟩

/-- The twin of `cexClaimA` with a different evidence description. -/
def cexClaimB : StrategicClaim :=
  ⟨"①", "A", "p", BeliefStrength.strong_true, ValueAttitude.approve,
    ClaimType.fact, [⟨EvidenceSource.data, EvidenceStrength.strong, "two"⟩]⟩

/-- C9 counterexample: two chains that differ only in the order of their
pairwise distinct claims can render byte-identically, because the evidence
description is not rendered; so claim-order sensitivity fails as stated. -/
theorem C9_renderer_order_cex :
    ReasoningChain.toNotation ⟨[cexClaimA, cexClaimB], [], "s"⟩ =
      ReasoningChain.toNotation ⟨[cexClaimB, cexClaimA], [], "s"⟩ ∧
    cexClaimA ≠ cexClaimB ∧
    ([cexClaimA, cexClaimB] : List StrategicClaim).Perm
      [cexClaimB, cexClaimA] ∧
    List.Pairwise (fun x y => x ≠ y) [cexClaimA, cexClaimB] := by
  refine ⟨by decide, by decide, List.Perm.swap cexClaimB cexClaimA [], by decide⟩

/-- C9 (amended): rendering is deterministic, and two chains differing
only in the order of their claims render differently PROVIDED the claims'
rendered notation lines are pairwise distinct and contain no newline
character (the renderer emits claims in stored order with no sorting, so
distinct newline-free line sequences join to distinct outputs). -/
theorem C9_renderer_deterministic_order :
    (∀ ch : ReasoningChain,
      ReasoningChain.toNotation ch = ReasoningChain.toNotation ch) ∧
    (∀ ch1 ch2 : ReasoningChain,
      ch2.claims.Perm ch1.claims →
      ch1.claims ≠ ch2.claims →
      ch1.links = ch2.links →
      (ch1.claims.map StrategicClaim.toNotation).Nodup →
      (∀ c ∈ ch1.claims, '\n' ∉ (StrategicClaim.toNotation c).data) →
      (∀ c ∈ ch2.claims, '\n' ∉ (StrategicClaim.toNotation c).data) →
      ReasoningChain.toNotation ch1 ≠ ReasoningChain.toNotation ch2) := by
  refine ⟨fun ch => rfl, ?_⟩
  intro ch1 ch2 hperm hne hlinks hnd hnl1 hnl2 heq
  rw [toNotation_split, toNotation_split, hlinks] at heq
  have hmapeq : ch1.claims.map StrategicClaim.toNotation =
      ch2.claims.map StrategicClaim.toNotation := by
    apply joinSep_nl_inj _ _ (linkBlock ch2.links)
    · rw [List.length_map, List.length_map, hperm.length_eq]
    · intro a ha
      obtain ⟨c, hc, rfl⟩ := List.mem_map.mp ha
      exact hnl1 c hc
    · intro a ha
      obtain ⟨c, hc, rfl⟩ := List.mem_map.mp ha
      exact hnl2 c hc
    · exact heq
  exact hne (map_eq_of_perm_nodup _ _ _ hperm hnd hmapeq)

/-- C9 witness: two concrete chains holding the same two claims (with
distinct newline-free rendered lines) in opposite orders render
differently. -/
theorem C9_renderer_deterministic_order_witness :
    ReasoningChain.toNotation
        ⟨[⟨"①", "A", "p", BeliefStrength.strong_true,
            ValueAttitude.approve, ClaimType.fact, []⟩,
          ⟨"②", "B", "q", BeliefStrength.undecided, ValueAttitude.neutral,
            ClaimType.value, []⟩], [], "s"⟩ ≠
      ReasoningChain.toNotation
        ⟨[⟨"②", "B", "q", BeliefStrength.undecided, ValueAttitude.neutral,
            ClaimType.value, []⟩,
          ⟨"①", "A", "p", BeliefStrength.strong_true,
            ValueAttitude.approve, ClaimType.fact, []⟩], [], "s"⟩ :=
  C9_renderer_deterministic_order.2 _ _
    (List.Perm.swap _ _ _) (by decide) rfl (by decide) (by decide)
    (by decide)

/-! ### The symbol-lookup tables of `contracts/inspect_reasoning.py` (C7)

The inspection renderer looks symbols up with `dict.get(value, "?")`, so
an unrecognized category value degrades to the placeholder instead of
raising. -/

/-- `belief_map` of `inspect_reasoning.render_full_analysis`. -/
def belief_map : Dict :=
  [("certain_true", "⬤"), ("strong_true", "●"), ("lean_true", "◐"),
   ("undecided", "◌"), ("lean_false", "◑"), ("certain_false", "○")]

/-- `value_map` of `inspect_reasoning.render_full_analysis`. -/
def value_map : Dict :=
  [("approve", "⬆"), ("disapprove", "⬇"), ("mixed", "⇆"), ("neutral", "⟂")]

/-- `type_map` of `inspect_reasoning.render_full_analysis`. -/
def type_map : Dict :=
  [("fact", "⧈"), ("value", "⚖"), ("policy", "⏵"), ("preference", "✦")]

/-- `source_map` of `inspect_reasoning.render_full_analysis`. -/
def source_map : Dict :=
  [("legal_precedent", "⚖️"), ("statute", "📜"), ("data", "📊"),
   ("theory", "📚"), ("observation", "👁"), ("testimony", "🗣"),
   ("industry_practice", "🏢"), ("economic", "💰"), ("risk", "⚠")]

/-- `strength_map` of `inspect_reasoning.render_full_analysis`. -/
def strength_map : Dict :=
  [("very_strong", "★★★"), ("strong", "★★"), ("weak", "★"),
   ("very_weak", "☆")]

/-- `relation_map` of `inspect_reasoning.render_full_analysis`. -/
def relation_map : Dict :=
  [("supports", "⟶"), ("attacks", "⟞"), ("explains", "⇢"),
   ("equivalent", "⟺")]

/-- The claim line assembled by `render_full_analysis` (lines 93-133) for
a stored record whose category fields are raw strings: every symbol is
fetched with `.get(value, "?")`. -/
def inspectClaimLine (claim_id agent belief value ctype prop : String)
    (evidence : List (String × String)) : String :=
  let line_parts := [claim_id, "«" ++ agent ++ "»",
    dget belief_map belief "?" ++ dget value_map value "?",
    dget type_map ctype "?", "\"" ++ prop ++ "\""]
  let line_parts2 := if evidence = [] then line_parts else
    line_parts ++ ["⊢ " ++ joinSep " ⋀ "
      (evidence.map (fun ev =>
        dget source_map ev.1 "?" ++ dget strength_map ev.2 "?"))]
  joinSep " " line_parts2

theorem dget_mem_or_default (k d : String) :
    ∀ m : Dict, (k, dget m k d) ∈ m ∨ dget m k d = d := by
  intro m
  induction m with
  | nil => right; rfl
  | cons p rest ih =>
    obtain ⟨k2, v⟩ := p
    by_cases hk : k2 = k
    · left
      subst hk
      simp [dget]
    · rcases ih with h | h
      · left
        simp only [dget, hk, if_neg, if_false]
        exact List.mem_cons_of_mem _ (by simpa [dget, hk] using h)
      · right
        simpa [dget, hk] using h

theorem dget_default_of_not_key (k d : String) :
    ∀ m : Dict, k ∉ m.map Prod.fst → dget m k d = d := by
  intro m
  induction m with
  | nil => intro _; rfl
  | cons p rest ih =>
    obtain ⟨k2, v⟩ := p
    intro hk
    simp only [List.map_cons, List.mem_cons, not_or] at hk
    have : k2 ≠ k := fun h => hk.1 h.symm
    simp [dget, this, ih hk.2]

/-- C7: for any of the six inspection symbol tables, looking up any string
either returns the stored symbol of a recognized value or, for every
unrecognized value, the fixed placeholder `"?"`; the lookup is total so
rendering a partially-invalid record always completes. -/
theorem C7_unknown_value_placeholder :
    ∀ (s : String) (m : Dict),
      m ∈ [belief_map, value_map, type_map, source_map, strength_map,
        relation_map] →
      (((s, dget m s "?") ∈ m ∨ dget m s "?" = "?") ∧
        (s ∉ m.map Prod.fst → dget m s "?" = "?")) := by
  intro s m _
  exact ⟨dget_mem_or_default s "?" m,
    fun h => dget_default_of_not_key s "?" m h⟩

/-- C7 witness: the unrecognized value `"bogus"` maps to `"?"` in the
belief table, and a claim line rendered from a record whose three category
fields are all unrecognized completes with placeholder symbols. -/
theorem C7_unknown_value_placeholder_witness :
    dget belief_map "bogus" "?" = "?" ∧
      inspectClaimLine "①" "A" "bogus" "nope" "huh" "p" []
        = "① «A» ?? ? \"p\"" :=
  ⟨(C7_unknown_value_placeholder "bogus" belief_map (by decide)).2
      (by decide),
    by decide⟩

/-! ### The resume ledger and sequential orchestrator of
`generate_negotiation_variations_v3.py` (C3, C4)

The external generator (`generate_variations_for_clause`, an LLM call) is
an opaque function `ext : Dict → Option GenOut`: `some` models a
conforming payload, `none` models a raised/caught per-record error. JSONL
reading/writing is modelled post-parse: the output file is the list of
records appended to it (malformed-line skipping in
`load_existing_hashes` is out of scope of these claims). -/

/-- What a successful external generation contributes to a record. -/
structure GenOut where
  analysis : String
  timestamp : String
  deriving DecidableEq, Repr

/-- One output JSONL record, as written by the orchestrator. -/
structure OutRec where
  clause_hash : String
  original_clause_data : Dict
  negotiation_analysis : String
  timestamp : String
  deriving DecidableEq, Repr

/-- The record assembled by `generate_variations_for_clause_async`. -/
def mkOutRec (clause_data : Dict) (g : GenOut) : OutRec :=
  ⟨compute_clause_hash clause_data, clause_data, g.analysis, g.timestamp⟩

/-- Python `set.add`, on a duplicate-free list model of a set. -/
def insertHash (s : List String) (h : String) : List String :=
  if s.contains h then s else s ++ [h]

/-- `load_existing_hashes`: the set of fingerprints recomputed from the
`original_clause_data` of every record already in the output file. -/
def load_existing_hashes (output : List OutRec) : List String :=
  output.foldl
    (fun acc r => insertHash acc (compute_clause_hash r.original_clause_data))
    []

/-- Counters and records produced by one run. -/
structure RunResult where
  newRecs : List OutRec
  success : Nat
  fail : Nat
  skipped : Nat
  deriving DecidableEq, Repr

/-- The per-record loop of the sequential `process_clauses` (lines
555-577): skip when the fingerprint is already in the ledger; on success
append the record and insert the fingerprint; on a raised error count the
failure and continue — the error never escapes the loop. -/
def run_loop (ext : Dict → Option GenOut) :
    List Dict → List String → RunResult
  | [], _ => ⟨[], 0, 0, 0⟩
  | c :: rest, existing =>
    let h := compute_clause_hash c
    if existing.contains h then
      let r := run_loop ext rest existing
      ⟨r.newRecs, r.success, r.fail, r.skipped + 1⟩
    else
      match ext c with
      | some g =>
        let r := run_loop ext rest (insertHash existing h)
        ⟨mkOutRec c g :: r.newRecs, r.success + 1, r.fail, r.skipped⟩
      | none =>
        let r := run_loop ext rest existing
        ⟨r.newRecs, r.success, r.fail + 1, r.skipped⟩

/-- Sequential `process_clauses`: offset/limit slicing (`max_samples = 0`
models Python's falsy `None`/`0`), ledger seeding under resume, the
initial duplicate filter (only when the loaded ledger is non-empty, as in
the code), early return when nothing remains, then the per-record loop.
`newRecs` are the lines appended to the output file; the in-loop skip
counter is modelled (the printed initialization `skip_count =
len(existing_hashes)` is display-only). -/
def process_clauses (input : List Dict) (output0 : List OutRec)
    (ext : Dict → Option GenOut) (resume : Bool) (max_samples : Nat)
    (start_offset : Nat) : RunResult :=
  let clauses := if start_offset > 0 then input.drop start_offset else input
  let clauses2 := if max_samples ≠ 0 then clauses.take max_samples else
    clauses
  let existing := if resume then load_existing_hashes output0 else []
  let clauses3 := if existing ≠ [] then
      clauses2.filter (fun c => !existing.contains (compute_clause_hash c))
    else clauses2
  if clauses3 = [] then ⟨[], 0, 0, 0⟩
  else run_loop ext clauses3 existing

theorem contains_iff_mem (l : List String) (x : String) :
    l.contains x = true ↔ x ∈ l := by
  simp [List.contains_iff_exists_mem_beq, beq_iff_eq, eq_comm]

theorem mem_insertHash (s : List String) (h x : String) :
    x ∈ insertHash s h ↔ x ∈ s ∨ x = h := by
  unfold insertHash
  by_cases hc : s.contains h = true
  · have hm : h ∈ s := (contains_iff_mem s h).mp hc
    simp only [hc, if_true, ite_true]
    constructor
    · exact fun hx => Or.inl hx
    · rintro (hx | hx)
      · exact hx
      · exact hx ▸ hm
  · simp only [hc, if_false, Bool.false_eq_true, ite_false,
      List.mem_append, List.mem_singleton]

theorem run_loop_covers (ext : Dict → Option GenOut) :
    ∀ (clauses : List Dict) (existing : List String),
      (∀ c ∈ clauses, (ext c).isSome) →
      ∀ c ∈ clauses,
        compute_clause_hash c ∈ existing ∨
        ∃ r ∈ (run_loop ext clauses existing).newRecs,
          compute_clause_hash r.original_clause_data =
            compute_clause_hash c := by
  intro clauses
  induction clauses with
  | nil => intro existing _ c hc; exact absurd hc (List.not_mem_nil c)
  | cons c0 rest ih =>
    intro existing hsome c hc
    by_cases hct : existing.contains (compute_clause_hash c0) = true
    · -- skip branch
      have hrl : run_loop ext (c0 :: rest) existing =
          ⟨(run_loop ext rest existing).newRecs,
            (run_loop ext rest existing).success,
            (run_loop ext rest existing).fail,
            (run_loop ext rest existing).skipped + 1⟩ := by
        simp only [run_loop]
        rw [if_pos hct]
      rcases List.mem_cons.mp hc with hceq | hcr
      · subst hceq
        exact Or.inl ((contains_iff_mem _ _).mp hct)
      · rcases ih existing (fun x hx => hsome x (List.mem_cons_of_mem _ hx))
          c hcr with h | ⟨r, hr, hrh⟩
        · exact Or.inl h
        · exact Or.inr ⟨r, by rw [hrl]; exact hr, hrh⟩
    · -- fresh: ext c0 must be some
      obtain ⟨g, hg⟩ := Option.isSome_iff_exists.mp
        (hsome c0 (List.mem_cons_self c0 rest))
      have hrl : run_loop ext (c0 :: rest) existing =
          ⟨mkOutRec c0 g ::
            (run_loop ext rest
              (insertHash existing (compute_clause_hash c0))).newRecs,
            (run_loop ext rest
              (insertHash existing (compute_clause_hash c0))).success + 1,
            (run_loop ext rest
              (insertHash existing (compute_clause_hash c0))).fail,
            (run_loop ext rest
              (insertHash existing (compute_clause_hash c0))).skipped⟩ := by
        simp only [run_loop]
        rw [if_neg hct]
        rw [hg]
      rcases List.mem_cons.mp hc with hceq | hcr
      · subst hceq
        refine Or.inr ⟨mkOutRec c g, ?_, rfl⟩
        rw [hrl]
        exact List.mem_cons_self _ _
      · rcases ih (insertHash existing (compute_clause_hash c0))
          (fun x hx => hsome x (List.mem_cons_of_mem _ hx)) c hcr with
          h | ⟨r, hr, hrh⟩
        · rcases (mem_insertHash _ _ _).mp h with h2 | h2
          · exact Or.inl h2
          · refine Or.inr ⟨mkOutRec c0 g, ?_, by simp [mkOutRec, h2]⟩
            rw [hrl]
            exact List.mem_cons_self _ _
        · exact Or.inr ⟨r, by rw [hrl]; exact List.mem_cons_of_mem _ hr, hrh⟩

theorem mem_load_existing (output : List OutRec) (h : String) :
    h ∈ load_existing_hashes output ↔
      ∃ r ∈ output, compute_clause_hash r.original_clause_data = h := by
  unfold load_existing_hashes
  suffices hgen : ∀ (acc : List String),
      h ∈ output.foldl
        (fun acc r =>
          insertHash acc (compute_clause_hash r.original_clause_data)) acc ↔
      h ∈ acc ∨ ∃ r ∈ output,
        compute_clause_hash r.original_clause_data = h by
    rw [hgen []]
    simp
  induction output with
  | nil => intro acc; simp
  | cons r rest ih =>
    intro acc
    simp only [List.foldl_cons, ih, mem_insertHash, List.mem_cons]
    constructor
    · rintro (⟨ha | he⟩ | ⟨r2, hr2, hh⟩)
      · exact Or.inl ha
      · exact Or.inr ⟨r, Or.inl rfl, he.symm⟩
      · exact Or.inr ⟨r2, Or.inr hr2, hh⟩
    · rintro (ha | ⟨r2, hr2 | hr2, hh⟩)
      · exact Or.inl (Or.inl ha)
      · subst hr2; exact Or.inl (Or.inr hh.symm)
      · exact Or.inr ⟨r2, hr2, hh⟩

/-- C3: after a fully-successful resumed run over an input file starting
from an empty output, running any generator again over the same input with
resume enabled appends zero new lines: every input fingerprint is already
in the ledger seeded from the first run's output. -/
theorem C3_resume_idempotent :
    ∀ (input : List Dict) (ext ext2 : Dict → Option GenOut),
      (∀ c ∈ input, (ext c).isSome) →
      (process_clauses input
          (process_clauses input [] ext true 0 0).newRecs
          ext2 true 0 0).newRecs = [] := by
  intro input ext ext2 hsome
  have hrun1 : process_clauses input [] ext true 0 0 =
      (if input = [] then (⟨[], 0, 0, 0⟩ : RunResult)
       else run_loop ext input []) := by
    simp [process_clauses, load_existing_hashes]
  by_cases hin : input = []
  · subst hin
    simp [process_clauses, load_existing_hashes]
  · rw [hrun1, if_neg hin]
    -- every input hash is covered by the first run's records
    have hcov : ∀ c ∈ input,
        ∃ r ∈ (run_loop ext input []).newRecs,
          compute_clause_hash r.original_clause_data =
            compute_clause_hash c := by
      intro c hc
      rcases run_loop_covers ext input [] hsome c hc with h | h
      · exact absurd h (List.not_mem_nil _)
      · exact h
    -- hence every input hash is in the reloaded ledger
    have hmem : ∀ c ∈ input,
        compute_clause_hash c ∈
          load_existing_hashes (run_loop ext input []).newRecs := by
      intro c hc
      exact (mem_load_existing _ _).mpr (hcov c hc)
    -- the reloaded ledger is non-empty
    have hne : load_existing_hashes (run_loop ext input []).newRecs ≠ [] := by
      obtain ⟨c0, hc0⟩ := List.exists_mem_of_ne_nil input hin
      intro hnil
      have := hmem c0 hc0
      rw [hnil] at this
      exact List.not_mem_nil _ this
    -- so the second run filters everything out and returns early
    have hfilter : input.filter
        (fun c => !(load_existing_hashes
          (run_loop ext input []).newRecs).contains
            (compute_clause_hash c)) = [] := by
      apply List.filter_eq_nil_iff.mpr
      intro c hc
      have hct := (contains_iff_mem _ _).mpr (hmem c hc)
      simp only [hct, Bool.not_true]
      decide
    simp [process_clauses, hfilter, hne]
    rw [if_pos hmem]

/-- A generator that always returns a conforming payload. -/
def extOk : Dict → Option GenOut := fun _ => some ⟨"a", "t"⟩

/-- C3 witness: a concrete one-record input processed twice with resume
appends nothing on the second pass. -/
theorem C3_resume_idempotent_witness :
    (process_clauses [[("clause", "x")]]
        (process_clauses [[("clause", "x")]] [] extOk true 0 0).newRecs
        extOk true 0 0).newRecs = [] :=
  C3_resume_idempotent [[("clause", "x")]] extOk extOk (by decide)

theorem run_loop_all_fresh (ext : Dict → Option GenOut) :
    ∀ (clauses : List Dict) (existing : List String),
      (∀ c ∈ clauses, compute_clause_hash c ∉ existing) →
      clauses.Pairwise
        (fun a b => compute_clause_hash a ≠ compute_clause_hash b) →
      run_loop ext clauses existing =
        ⟨clauses.filterMap (fun c => (ext c).map (mkOutRec c)),
         clauses.countP (fun c => (ext c).isSome),
         clauses.countP (fun c => (ext c).isNone), 0⟩ := by
  intro clauses
  induction clauses with
  | nil => intro existing _ _; rfl
  | cons c0 rest ih =>
    intro existing hfresh hpw
    have hct : ¬existing.contains (compute_clause_hash c0) = true := by
      intro h
      exact hfresh c0 (List.mem_cons_self c0 rest)
        ((contains_iff_mem _ _).mp h)
    obtain ⟨hhead, htail⟩ := List.pairwise_cons.mp hpw
    cases hg : ext c0 with
    | some g =>
      have hrest : ∀ c ∈ rest,
          compute_clause_hash c ∉
            insertHash existing (compute_clause_hash c0) := by
        intro c hc hmem
        rcases (mem_insertHash _ _ _).mp hmem with h | h
        · exact hfresh c (List.mem_cons_of_mem _ hc) h
        · exact hhead c hc h.symm
      have := ih (insertHash existing (compute_clause_hash c0)) hrest htail
      simp only [run_loop]
      rw [if_neg hct, hg, this]
      simp [List.filterMap_cons, List.countP_cons, hg]
    | none =>
      have := ih existing (fun c hc => hfresh c (List.mem_cons_of_mem _ hc))
        htail
      simp only [run_loop]
      rw [if_neg hct, hg, this]
      simp [List.filterMap_cons, List.countP_cons, hg]

theorem length_filterMap_genOut (ext : Dict → Option GenOut) :
    ∀ l : List Dict,
      (l.filterMap (fun c => (ext c).map (mkOutRec c))).length =
        l.countP (fun c => (ext c).isSome) := by
  intro l
  induction l with
  | nil => rfl
  | cons c rest ih =>
    cases hg : ext c with
    | some g => simp [List.filterMap_cons, List.countP_cons, hg, ih]
    | none => simp [List.filterMap_cons, List.countP_cons, hg, ih]

theorem C4_failure_isolation :
    ∀ (pre post : List Dict) (ck : Dict) (ext : Dict → Option GenOut),
      ext ck = none →
      (∀ c ∈ pre ++ post, (ext c).isSome) →
      (pre ++ ck :: post).Pairwise
        (fun a b => compute_clause_hash a ≠ compute_clause_hash b) →
      (process_clauses (pre ++ ck :: post) [] ext true 0 0).newRecs.length
          = (pre ++ ck :: post).length - 1 ∧
      (process_clauses (pre ++ ck :: post) [] ext true 0 0).fail = 1 ∧
      (process_clauses (pre ++ ck :: post) [] ext true 0 0).success
          = (pre ++ ck :: post).length - 1 ∧
      ∀ r ∈ (process_clauses (pre ++ ck :: post) [] ext true 0 0).newRecs,
        r.original_clause_data ≠ ck := by
  intro pre post ck ext hck hsome hpw
  have hpre : ∀ c ∈ pre, (ext c).isSome :=
    fun c hc => hsome c (List.mem_append_left _ hc)
  have hpost : ∀ c ∈ post, (ext c).isSome :=
    fun c hc => hsome c (List.mem_append_right _ hc)
  have hproc : process_clauses (pre ++ ck :: post) [] ext true 0 0 =
      run_loop ext (pre ++ ck :: post) [] := by
    simp [process_clauses, load_existing_hashes]
  rw [hproc, run_loop_all_fresh ext _ [] (by simp) hpw]
  have hcntS : (pre ++ ck :: post).countP (fun c => (ext c).isSome) =
      pre.length + post.length := by
    rw [List.countP_append, List.countP_cons]
    have h1 : pre.countP (fun c => (ext c).isSome) = pre.length :=
      List.countP_eq_length.mpr (fun c hc => hpre c hc)
    have h2 : post.countP (fun c => (ext c).isSome) = post.length :=
      List.countP_eq_length.mpr (fun c hc => hpost c hc)
    simp [h1, h2, hck]
  have hcntN : (pre ++ ck :: post).countP (fun c => (ext c).isNone) = 1 := by
    rw [List.countP_append, List.countP_cons]
    have h1 : pre.countP (fun c => (ext c).isNone) = 0 :=
      List.countP_eq_zero.mpr (fun c hc => by
        simp [Option.isNone_iff_eq_none]
        intro hn
        have := hpre c hc
        rw [hn] at this
        exact absurd this (by simp))
    have h2 : post.countP (fun c => (ext c).isNone) = 0 :=
      List.countP_eq_zero.mpr (fun c hc => by
        simp [Option.isNone_iff_eq_none]
        intro hn
        have := hpost c hc
        rw [hn] at this
        exact absurd this (by simp))
    simp [h1, h2, hck]
  refine ⟨?_, ?_, ?_, ?_⟩
  · rw [length_filterMap_genOut, hcntS]
    simp [List.length_append, List.length_cons]
  · exact hcntN
  · rw [hcntS]
    simp [List.length_append, List.length_cons]
  · intro r hr
    obtain ⟨c, hc, heq⟩ := List.mem_filterMap.mp hr
    obtain ⟨g, hg, hrg⟩ := Option.map_eq_some'.mp heq
    intro hrck
    have hcck : c = ck := by
      rw [← hrg] at hrck
      exact hrck
    rw [hcck, hck] at hg
    exact Option.noConfusion hg

def cexDict1 : Dict := [("clause", "c"), ("k", "1")]

def cexDict2 : Dict := [("clause", "c"), ("k", "2")]

def cexExt : Dict → Option GenOut :=
  fun d => if d = cexDict2 then none else some ⟨"a", "t"⟩

set_option maxRecDepth 1000000 in
theorem C4_failure_isolation_cex :
    (process_clauses [cexDict1, cexDict2] [] cexExt true 0 0).fail = 0 ∧
    (process_clauses [cexDict1, cexDict2] [] cexExt true 0 0).newRecs.length
      = 1 ∧
    cexExt cexDict2 = none ∧ (cexExt cexDict1).isSome ∧
    cexDict1 ≠ cexDict2 := by
  refine ⟨by decide, by decide, by decide, by decide, by decide⟩

def wDict1 : Dict := [("clause", "w1")]

def wDict2 : Dict := [("clause", "w2")]

def wDict3 : Dict := [("clause", "w3")]

def wExt : Dict → Option GenOut :=
  fun d => if d = wDict2 then none else some ⟨"a", "t"⟩

set_option maxRecDepth 1000000 in
theorem C4_failure_isolation_witness :
    (process_clauses [wDict1, wDict2, wDict3] [] wExt true 0 0).fail = 1 ∧
    (process_clauses [wDict1, wDict2, wDict3] [] wExt true 0 0).newRecs.length
      = 2 := by
  obtain ⟨hlen, hfail, _, _⟩ := C4_failure_isolation [wDict1] [wDict3] wDict2
    wExt (by decide) (by decide) (by decide)
  exact ⟨hfail, hlen⟩

/-! ### Bounded-concurrency orchestration (`process_clauses_async`): C2

Under asyncio, the code of `process_one` between two `await` points runs
atomically; suspension happens at the semaphore, at the generator call and
when acquiring `write_lock`. The model below gives each task one atomic
step per region the code actually executes without awaiting:

* `TaskPhase.start` → the duplicate check `if clause_hash in
  existing_hashes` (lines 434-438), which the code performs OUTSIDE
  `write_lock`, before awaiting the generator;
* `TaskPhase.generating` → completion of the awaited generator call
  followed by the whole `write_lock` region (append + flush + hash insert
  + counter), which is one atomic segment because the lock serializes it.

A schedule is the list of task indices in the order the event loop runs
their next segment; the semaphore only bounds how many tasks are past
`start`, so with `max_workers ≥ 2` it does not constrain the two-task
schedules used below. -/

/-- Where a `process_one` task stands between suspension points. -/
inductive TaskPhase
  | start
  | generating
  | done
  deriving DecidableEq, Repr

/-- The shared state of `process_clauses_async`: the ledger, the output
file and the counters. -/
structure AsyncState where
  existing : List String
  log : List OutRec
  success : Nat
  fail : Nat
  skip : Nat
  deriving DecidableEq, Repr

/-- The whole system: shared state plus each task's clause and phase. -/
structure AsyncSys where
  st : AsyncState
  tasks : List (Dict × TaskPhase)
  deriving DecidableEq, Repr

/-- Run the next atomic segment of task `i` (no-op on a finished or
out-of-range task). -/
def asyncStep (ext : Dict → Option GenOut) (sys : AsyncSys) (i : Nat) :
    AsyncSys :=
  match sys.tasks.get? i with
  | none => sys
  | some (c, phase) =>
    match phase with
    | TaskPhase.start =>
      let h := compute_clause_hash c
      if sys.st.existing.contains h then
        ⟨{ sys.st with skip := sys.st.skip + 1 },
          sys.tasks.set i (c, TaskPhase.done)⟩
      else
        ⟨sys.st, sys.tasks.set i (c, TaskPhase.generating)⟩
    | TaskPhase.generating =>
      match ext c with
      | some g =>
        ⟨{ sys.st with
            log := sys.st.log ++ [mkOutRec c g],
            existing := insertHash sys.st.existing (compute_clause_hash c),
            success := sys.st.success + 1 },
          sys.tasks.set i (c, TaskPhase.done)⟩
      | none =>
        ⟨{ sys.st with fail := sys.st.fail + 1 },
          sys.tasks.set i (c, TaskPhase.done)⟩
    | TaskPhase.done => sys

/-- Run a whole schedule from the initial state (`existing0` is the ledger
seeded before the tasks are created; the failing run below starts from an
empty output, where the code creates one task per input clause). -/
def asyncRun (ext : Dict → Option GenOut) (clauses : List Dict)
    (existing0 : List String) (sched : List Nat) : AsyncSys :=
  sched.foldl (asyncStep ext)
    ⟨⟨existing0, [], 0, 0, 0⟩, clauses.map (fun c => (c, TaskPhase.start))⟩

/-- The duplicated input record of the C2 failing run. -/
def dupDict : Dict := [("clause", "dup")]

/-- C2 failing run: two tasks for byte-identical records, scheduled so
both run their duplicate check (which the code does outside the write
lock) before either writes. Both pass the check, both generate, and the
output receives TWO records with the same fingerprint — the serialization
the claim asserts does not exist in the code. -/
theorem C2_dup_check_race :
    ((asyncRun extOk [dupDict, dupDict] [] [0, 1, 0, 1]).st.log.map
        OutRec.clause_hash)
      = [compute_clause_hash dupDict, compute_clause_hash dupDict] ∧
    (asyncRun extOk [dupDict, dupDict] [] [0, 1, 0, 1]).st.success = 2 ∧
    ((asyncRun extOk [dupDict, dupDict] [] [0, 1, 0, 1]).st.log.map
        OutRec.original_clause_data) = [dupDict, dupDict] := by
  refine ⟨?_, ?_, ?_⟩ <;> rfl
